import Mathlib

/-!
Verification of the weight-computation core of the wofa repository
(src/wofa/WeightFiniteAutomata.py).

Modelling conventions.
* Python floats are modelled as exact rationals: every arithmetic
  operation the code performs (field operations, integer powers,
  rounding) is exact on the inputs the claims quantify over.
* A Python call that raises (ZeroDivisionError on division by zero,
  numpy LinAlgError on a singular system, the TypeError that follows
  a fall-through None return) is modelled as the value none; a normal
  return of v is some v.
* The external FiniteAutomata collaborator is not part of src/; it is
  modelled from the spec (section 1) by the exact accessor interface the
  core consumes.  States are integers in [0, numStates); the class-level
  alphabet accessor is modelled as a per-automaton field.
-/

namespace Wofa

/-- Modelled from the spec: the external FiniteAutomata collaborator,
reduced to the accessors the core consumes: get_number_of_states,
get_alphabet, get_all_successors_with_letter, get_initials, get_finals.
The field succs q is the list of (target state, letter) pairs returned by
get_all_successors_with_letter(q). -/
structure FiniteAutomata where
  numStates : ℕ
  alphabet : Finset ℕ
  succs : ℕ → List (ℕ × ℕ)
  initials : Finset ℕ
  finals : Finset ℕ

/-- The per-target successor count a defaultdict accumulates in the source:
number_of_letters[p] after iterating over get_all_successors_with_letter(q). -/
def countLetters (fa : FiniteAutomata) (q p : ℕ) : ℕ :=
  ((fa.succs q).filter (fun pl => pl.1 = p)).length

/-- The matrix built by Matrix.__initial_matrix: entry (q, p) is
number_of_letters[p] / size_of_alphabet. -/
def transMat (fa : FiniteAutomata) : ℕ → ℕ → ℚ :=
  fun q p => (countLetters fa q p : ℚ) / (fa.alphabet.card : ℚ)

/-- Dense matrix product on n-by-n matrices stored as total functions,
as np.matmul computes it on the n-by-n arrays of the cache. -/
def matMul (n : ℕ) (a b : ℕ → ℕ → ℚ) : ℕ → ℕ → ℚ :=
  fun i j => ∑ l ∈ Finset.range n, a i l * b l j

/-- Mathematical powers of the one-step matrix, built exactly the way the
cache builds them: the power i + 1 is (power i) * M.  Index 0 is never
stored by the cache (keys start at 1) and is set to M so that every index
of this function denotes a stochastic matrix. -/
def matpow (fa : FiniteAutomata) : ℕ → (ℕ → ℕ → ℚ)
  | 0 => transMat fa
  | 1 => transMat fa
  | i + 2 => matMul fa.numStates (matpow fa (i + 1)) (transMat fa)

/-- Share(i): the sum over initial states s and final states f of the
(s, f) entry of the i-th matrix power. -/
def shareVal (fa : FiniteAutomata) (i : ℕ) : ℚ :=
  ∑ s ∈ fa.initials, ∑ f ∈ fa.finals, matpow fa i s f

/-- The Matrix class of the source: the automaton it was built from and the
dictionary self.matrices from word length to cached matrix power. -/
structure MatrixCache where
  fa : FiniteAutomata
  matrices : ℕ → Option (ℕ → ℕ → ℚ)

/-- Matrix.__init__ together with Matrix.__initial_matrix: the dictionary
holds exactly the one-step matrix, at key 1. -/
def MatrixCache.init (fa : FiniteAutomata) : MatrixCache :=
  ⟨fa, fun i => if i = 1 then some (transMat fa) else none⟩

/-- Matrix.get_matrix.  Returns the updated cache and the returned value.
If i is cached it is returned; otherwise, if i - 1 is cached, the product
with the one-step matrix is computed, cached at i and returned; otherwise
the method recurses on i - 1 and then falls through WITHOUT a return, so
Python yields None (modelled as none).  A missing key 1 in the compute
branch would raise KeyError (none); it is never missing in states reachable
from init.  For i = 0 the source would recurse without bound on negative
arguments when 0 is not cached (a crash, none here). -/
def MatrixCache.get_matrix : MatrixCache → ℕ → MatrixCache × Option (ℕ → ℕ → ℚ)
  | st, 0 => (st, st.matrices 0)
  | st, i + 1 =>
    match st.matrices (i + 1) with
    | some m => (st, some m)
    | none =>
      match st.matrices i with
      | some before =>
        match st.matrices 1 with
        | some first =>
          let new_matrix := matMul st.fa.numStates before first
          (⟨st.fa, fun j => if j = i + 1 then some new_matrix else st.matrices j⟩,
            some new_matrix)
        | none => (st, none)
      | none => ((MatrixCache.get_matrix st i).1, none)

/-- Matrix.get_share.  For i < 1 it returns 0 without touching the cache.
Otherwise it fetches the matrix for i and sums the (initial, final)
entries; when get_matrix produced None, the first subscript raises
TypeError (none) - unless one of the two loops is empty, in which case the
accumulated 0 is returned. -/
def MatrixCache.get_share (st : MatrixCache) (i : ℤ) : MatrixCache × Option ℚ :=
  if i < 1 then (st, some 0)
  else
    match MatrixCache.get_matrix st i.toNat with
    | (st', some matrix) =>
      (st', some (∑ s ∈ st'.fa.initials, ∑ f ∈ st'.fa.finals, matrix s f))
    | (st', none) =>
      if st'.fa.initials.Nonempty ∧ st'.fa.finals.Nonempty then (st', none)
      else (st', some 0)

/-- Python true division: raises ZeroDivisionError (none) on a zero
denominator. -/
def pydiv (a b : ℚ) : Option ℚ := if b = 0 then none else some (a / b)

/-- The builtin round of Python: nearest integer, ties to the even one. -/
def py_round (q : ℚ) : ℤ :=
  if q - ⌊q⌋ < 1 / 2 then ⌊q⌋
  else if 1 / 2 < q - ⌊q⌋ then ⌊q⌋ + 1
  else if ⌊q⌋ % 2 = 0 then ⌊q⌋ else ⌊q⌋ + 1

/-- The first loop of __weight_with_matrix (the constant part): for each
listed length i, w += u * round(get_share(i) * k ^ i), threading the
mutating cache; a failing get_share aborts the call (none). -/
def constPartLoop (k : ℕ) (u : ℚ) :
    MatrixCache → ℚ → List ℕ → MatrixCache × Option ℚ
  | st, w, [] => (st, some w)
  | st, w, i :: rest =>
    match MatrixCache.get_share st (i : ℤ) with
    | (st', none) => (st', none)
    | (st', some share) =>
      constPartLoop k u st' (w + u * ((py_round (share * (k : ℚ) ^ i) : ℤ) : ℚ)) rest

/-- The second loop of __weight_with_matrix (the exponentially decaying
part): for each listed length i, accumulate get_share(i) * lam ^ (i + 1). -/
def expPartLoop (lam : ℚ) :
    MatrixCache → ℚ → List ℕ → MatrixCache × Option ℚ
  | st, acc, [] => (st, some acc)
  | st, acc, i :: rest =>
    match MatrixCache.get_share st (i : ℤ) with
    | (st', none) => (st', none)
    | (st', some share) => expPartLoop lam st' (acc + share * lam ^ (i + 1)) rest

/-- __weight_with_matrix(dfa, eta, lam, up_to).  The Matrix cache is built
first; then the plateau word count (1 - k ^ (eta + 1)) / (1 - k), the
plateau mass 1 - lam ^ (eta + 1) and the per-word weight are computed (each
division may raise); the empty word contributes once when initial and final
states meet; the first loop runs over range(1, eta + 1), the second over
range(eta + 1, up_to); finally the tail is scaled by (1 - lam) / lam
(raising when lam = 0) and added. -/
def weight_with_matrix (fa : FiniteAutomata) (eta : ℕ) (lam : ℚ)
    (up_to : ℕ := 0) : Option ℚ :=
  let matrix := MatrixCache.init fa
  let k : ℚ := (fa.alphabet.card : ℚ)
  match pydiv (1 - k ^ (eta + 1)) (1 - k) with
  | none => none
  | some max_words_in_c_p =>
    match pydiv (1 - lam ^ (eta + 1)) max_words_in_c_p with
    | none => none
    | some w_of_one_word_c_p =>
      let w0 : ℚ :=
        if (fa.initials ∩ fa.finals).Nonempty then w_of_one_word_c_p else 0
      match constPartLoop fa.alphabet.card w_of_one_word_c_p matrix w0
          (List.range' 1 eta) with
      | (_, none) => none
      | (st1, some w1) =>
        match expPartLoop lam st1 0 (List.range' (eta + 1) (up_to - (eta + 1))) with
        | (_, none) => none
        | (_, some weight_ex_part) =>
          match pydiv (1 - lam) lam with
          | none => none
          | some scale => some (w1 + weight_ex_part * scale)

/-- The coefficient matrix of the linear system set up by
__explicit_solution: entry (q, p) is number_of_letters[p] * (lam / k),
minus 1 on the diagonal. -/
def lsMatrix (fa : FiniteAutomata) (lam : ℚ) :
    Matrix (Fin fa.numStates) (Fin fa.numStates) ℚ :=
  Matrix.of fun q p =>
    if (p : ℕ) = (q : ℕ) then
      (countLetters fa q p : ℚ) * (lam / (fa.alphabet.card : ℚ)) - 1
    else
      (countLetters fa q p : ℚ) * (lam / (fa.alphabet.card : ℚ))

/-- The right-hand side of the linear system: -(1 - lam) at final states,
0 elsewhere. -/
def solVec (fa : FiniteAutomata) (lam : ℚ) : Fin fa.numStates → ℚ :=
  fun q => if (q : ℕ) ∈ fa.finals then -(1 - lam) else 0

/-- Modelled from the spec: np.linalg.solve, an external library call whose
exact-arithmetic contract is to return the unique solution of a
non-singular square system and to raise LinAlgError (none) on a singular
one.  Realised by Cramer's rule, which has exactly that contract. -/
def linalgSolve {n : ℕ} (a : Matrix (Fin n) (Fin n) ℚ) (b : Fin n → ℚ) :
    Option (Fin n → ℚ) :=
  if a.det = 0 then none else some (a.det⁻¹ • Matrix.cramer a b)

/-- __explicit_solution(dfa, lam): build the system, solve it, and return
the component of the solution at min(get_initials()); min of an empty set
raises ValueError (none) and an out-of-range index raises IndexError
(none). -/
def explicit_solution (fa : FiniteAutomata) (lam : ℚ) : Option ℚ :=
  match linalgSolve (lsMatrix fa lam) (solVec fa lam) with
  | none => none
  | some res =>
    if h : fa.initials.Nonempty then
      if hlt : fa.initials.min' h < fa.numStates then
        some (res ⟨fa.initials.min' h, hlt⟩)
      else none
    else none

/-- weight(dfa, eta, lam): the exact solution, plus the plateau estimate
with the default up_to = 0, minus the estimate with eta = 0 and
up_to = eta + 1. -/
def weight (dfa : FiniteAutomata) (eta : ℕ) (lam : ℚ) : Option ℚ :=
  match explicit_solution dfa lam with
  | none => none
  | some w0 =>
    match weight_with_matrix dfa eta lam 0 with
    | none => none
    | some w1 =>
      match weight_with_matrix dfa 0 lam (eta + 1) with
      | none => none
      | some w2 => some (w0 + w1 - w2)

/-- The cache state whose keys are exactly 1..j, each mapped to the
corresponding matrix power: the states the ascending get_share calls of
__weight_with_matrix move through. -/
def cacheUpTo (fa : FiniteAutomata) (j : ℕ) : MatrixCache :=
  ⟨fa, fun i => if 1 ≤ i ∧ i ≤ j then some (matpow fa i) else none⟩

/-- A cache state is valid when every stored entry sits at a key of at
least 1 and is the matrix power for its key. -/
def ValidCache (st : MatrixCache) : Prop :=
  ∀ j m, st.matrices j = some m → 1 ≤ j ∧ m = matpow st.fa j

/-- The totality part of the precondition on the automaton: every state in
range has exactly one outgoing transition per alphabet symbol (so exactly
card-of-alphabet successor pairs), all leading to states in range. -/
def TotalTransitions (fa : FiniteAutomata) : Prop :=
  ∀ q < fa.numStates,
    (fa.succs q).length = fa.alphabet.card ∧ ∀ pl ∈ fa.succs q, pl.1 < fa.numStates

/-- A single-state automaton: state 0 is initial and final, and its
successor list is the given one. -/
def oneState (ab : Finset ℕ) (ls : List (ℕ × ℕ)) : FiniteAutomata :=
  ⟨1, ab, fun q => if q = 0 then ls else [], {0}, {0}⟩

/-- The single-state automaton over a two-letter alphabet whose state
loops to itself on both letters: it accepts every word. -/
def exampleDFA : FiniteAutomata := oneState {0, 1} [(0, 0), (0, 1)]

/-- The same automaton over a one-letter alphabet. -/
def oneLetterDFA : FiniteAutomata := oneState {0} [(0, 0)]

/-- A two-state automaton over a two-letter alphabet in which both states
are initial and final and each loops to itself on both letters. -/
def twoInitDFA : FiniteAutomata :=
  ⟨2, {0, 1}, fun q => if q = 0 then [(0, 0), (0, 1)] else [(1, 0), (1, 1)],
    {0, 1}, {0, 1}⟩

/-! ### Basic facts about the cache -/

lemma matpow_succ (fa : FiniteAutomata) (i : ℕ) (h : 1 ≤ i) :
    matpow fa (i + 1) = matMul fa.numStates (matpow fa i) (transMat fa) := by
  match i, h with
  | i + 1, _ => rfl

lemma cacheUpTo_fa (fa : FiniteAutomata) (j : ℕ) : (cacheUpTo fa j).fa = fa := rfl

lemma cacheUpTo_matrices (fa : FiniteAutomata) (j i : ℕ) :
    (cacheUpTo fa j).matrices i =
      if 1 ≤ i ∧ i ≤ j then some (matpow fa i) else none := rfl

lemma init_eq_cacheUpTo (fa : FiniteAutomata) :
    MatrixCache.init fa = cacheUpTo fa 1 := by
  unfold MatrixCache.init cacheUpTo
  congr 1
  funext i
  by_cases h : i = 1
  · subst h; simp [matpow]
  · rw [if_neg h, if_neg (by omega)]

lemma get_matrix_cached (st : MatrixCache) (i : ℕ) (m : ℕ → ℕ → ℚ)
    (h : st.matrices i = some m) :
    MatrixCache.get_matrix st i = (st, some m) := by
  cases i with
  | zero => simp [MatrixCache.get_matrix, h]
  | succ n => simp [MatrixCache.get_matrix, h]

lemma get_matrix_compute (st : MatrixCache) (i : ℕ) (before first : ℕ → ℕ → ℚ)
    (hmiss : st.matrices (i + 1) = none)
    (hb : st.matrices i = some before) (h1 : st.matrices 1 = some first) :
    MatrixCache.get_matrix st (i + 1) =
      (⟨st.fa, fun j => if j = i + 1
          then some (matMul st.fa.numStates before first) else st.matrices j⟩,
        some (matMul st.fa.numStates before first)) := by
  simp [MatrixCache.get_matrix, hmiss, hb, h1]

lemma gs_next (fa : FiniteAutomata) (a : ℕ) (ha : 1 ≤ a) :
    MatrixCache.get_share (cacheUpTo fa (max (a - 1) 1)) (a : ℤ) =
      (cacheUpTo fa a, some (shareVal fa a)) := by
  unfold MatrixCache.get_share
  rw [if_neg (by omega)]
  have htn : ((a : ℤ)).toNat = a := by omega
  rw [htn]
  match a, ha with
  | 1, _ =>
    have hmax : max (1 - 1) 1 = 1 := rfl
    rw [hmax]
    rw [get_matrix_cached (cacheUpTo fa 1) 1 (matpow fa 1)
      (by simp [cacheUpTo_matrices])]
    simp [shareVal, cacheUpTo_fa]
  | (b + 2), _ =>
    have hmax : max (b + 2 - 1) 1 = b + 1 := by omega
    rw [hmax]
    rw [get_matrix_compute (cacheUpTo fa (b + 1)) (b + 1) (matpow fa (b + 1))
      (matpow fa 1)
      (by simp [cacheUpTo_matrices]) (by simp [cacheUpTo_matrices])
      (by simp [cacheUpTo_matrices])]
    have hpow : matMul (cacheUpTo fa (b + 1)).fa.numStates (matpow fa (b + 1))
        (matpow fa 1) = matpow fa (b + 2) := rfl
    rw [hpow]
    have hstate : (⟨(cacheUpTo fa (b + 1)).fa, fun j => if j = b + 1 + 1
        then some (matpow fa (b + 2)) else (cacheUpTo fa (b + 1)).matrices j⟩ :
          MatrixCache) = cacheUpTo fa (b + 2) := by
      unfold cacheUpTo
      congr 1
      funext j
      by_cases hj : j = b + 2
      · subst hj; simp
      · simp only [cacheUpTo_matrices]
        by_cases h1j : 1 ≤ j ∧ j ≤ b + 1
        · rw [if_neg (by omega), if_pos h1j, if_pos (by omega)]
        · rw [if_neg (by omega), if_neg h1j, if_neg (by omega)]
    rw [hstate]
    simp [shareVal, cacheUpTo_fa]

/-! ### The two loops of the estimator walk the cache in ascending order -/

lemma constPartLoop_eval (fa : FiniteAutomata) (k : ℕ) (u : ℚ) :
    ∀ (m a : ℕ) (w : ℚ), 1 ≤ a →
      constPartLoop k u (cacheUpTo fa (max (a - 1) 1)) w (List.range' a m) =
        (cacheUpTo fa (max (a + m - 1) 1),
          some (w + ∑ t ∈ Finset.range m,
            u * ((py_round (shareVal fa (a + t) * (k : ℚ) ^ (a + t)) : ℤ) : ℚ))) := by
  intro m
  induction m with
  | zero =>
    intro a w ha
    simp [constPartLoop]
  | succ m ih =>
    intro a w ha
    rw [List.range'_succ]
    rw [show constPartLoop k u (cacheUpTo fa (max (a - 1) 1)) w
        (a :: List.range' (a + 1) m) =
      (match MatrixCache.get_share (cacheUpTo fa (max (a - 1) 1)) (a : ℤ) with
        | (st', none) => (st', none)
        | (st', some share) => constPartLoop k u st'
            (w + u * ((py_round (share * (k : ℚ) ^ a) : ℤ) : ℚ)) (List.range' (a + 1) m))
      from rfl]
    rw [gs_next fa a ha]
    have hst : cacheUpTo fa a = cacheUpTo fa (max (a + 1 - 1) 1) := by
      rw [show max (a + 1 - 1) 1 = a by omega]
    rw [show (match (cacheUpTo fa a, some (shareVal fa a)) with
        | (st', none) => (st', none)
        | (st', some share) => constPartLoop k u st'
            (w + u * ((py_round (share * (k : ℚ) ^ a) : ℤ) : ℚ)) (List.range' (a + 1) m)) =
      constPartLoop k u (cacheUpTo fa a)
        (w + u * ((py_round (shareVal fa a * (k : ℚ) ^ a) : ℤ) : ℚ))
        (List.range' (a + 1) m) from rfl]
    rw [hst, ih (a + 1) _ (by omega)]
    congr 1
    · rw [show a + 1 + m - 1 = a + (m + 1) - 1 by omega]
    · congr 1
      rw [Finset.sum_range_succ']
      have hsum : ∀ t ∈ Finset.range m,
          u * ((py_round (shareVal fa (a + 1 + t) * (k : ℚ) ^ (a + 1 + t)) : ℤ) : ℚ) =
          u * ((py_round (shareVal fa (a + (t + 1)) * (k : ℚ) ^ (a + (t + 1))) : ℤ) : ℚ) := by
        intro t _
        rw [show a + 1 + t = a + (t + 1) by omega]
      rw [Finset.sum_congr rfl hsum, add_assoc, add_comm
        (u * ((py_round (shareVal fa a * (k : ℚ) ^ a) : ℤ) : ℚ))]
      simp

lemma expPartLoop_eval (fa : FiniteAutomata) (lam : ℚ) :
    ∀ (m a : ℕ) (acc : ℚ), 1 ≤ a →
      expPartLoop lam (cacheUpTo fa (max (a - 1) 1)) acc (List.range' a m) =
        (cacheUpTo fa (max (a + m - 1) 1),
          some (acc + ∑ t ∈ Finset.range m,
            shareVal fa (a + t) * lam ^ (a + t + 1))) := by
  intro m
  induction m with
  | zero =>
    intro a acc ha
    simp [expPartLoop]
  | succ m ih =>
    intro a acc ha
    rw [List.range'_succ]
    rw [show expPartLoop lam (cacheUpTo fa (max (a - 1) 1)) acc
        (a :: List.range' (a + 1) m) =
      (match MatrixCache.get_share (cacheUpTo fa (max (a - 1) 1)) (a : ℤ) with
        | (st', none) => (st', none)
        | (st', some share) => expPartLoop lam st'
            (acc + share * lam ^ (a + 1)) (List.range' (a + 1) m))
      from rfl]
    rw [gs_next fa a ha]
    have hst : cacheUpTo fa a = cacheUpTo fa (max (a + 1 - 1) 1) := by
      rw [show max (a + 1 - 1) 1 = a by omega]
    rw [show (match (cacheUpTo fa a, some (shareVal fa a)) with
        | (st', none) => (st', none)
        | (st', some share) => expPartLoop lam st'
            (acc + share * lam ^ (a + 1)) (List.range' (a + 1) m)) =
      expPartLoop lam (cacheUpTo fa a) (acc + shareVal fa a * lam ^ (a + 1))
        (List.range' (a + 1) m) from rfl]
    rw [hst, ih (a + 1) _ (by omega)]
    congr 1
    · rw [show a + 1 + m - 1 = a + (m + 1) - 1 by omega]
    · congr 1
      rw [Finset.sum_range_succ']
      have hsum : ∀ t ∈ Finset.range m,
          shareVal fa (a + 1 + t) * lam ^ (a + 1 + t + 1) =
          shareVal fa (a + (t + 1)) * lam ^ (a + (t + 1) + 1) := by
        intro t _
        rw [show a + 1 + t = a + (t + 1) by omega]
      rw [Finset.sum_congr rfl hsum, add_assoc, add_comm
        (shareVal fa a * lam ^ (a + 1))]
      simp

/-! ### Closed evaluation of the estimator -/

lemma geom_div (x : ℚ) (n : ℕ) (hx : 1 - x ≠ 0) :
    (1 - x ^ n) / (1 - x) = ∑ i ∈ Finset.range n, x ^ i := by
  rw [div_eq_iff hx]
  have h := geom_sum_mul x n
  linear_combination h

lemma geom_cast_ge_one (k : ℕ) (n : ℕ) :
    (1 : ℚ) ≤ ∑ i ∈ Finset.range (n + 1), (k : ℚ) ^ i := by
  have h0 : ((k : ℚ)) ^ 0 = 1 := pow_zero _
  calc (1 : ℚ) = (k : ℚ) ^ 0 := h0.symm
    _ ≤ ∑ i ∈ Finset.range (n + 1), (k : ℚ) ^ i :=
      Finset.single_le_sum (f := fun i => (k : ℚ) ^ i)
        (fun i _ => pow_nonneg (Nat.cast_nonneg k) i)
        (Finset.mem_range.mpr (Nat.succ_pos n))

lemma one_sub_card_ne (k : ℕ) (hk : k ≠ 1) : (1 : ℚ) - (k : ℚ) ≠ 0 := by
  have : (k : ℚ) ≠ 1 := by exact_mod_cast hk
  exact sub_ne_zero.mpr (Ne.symm this)

lemma max_words_ne_zero (k : ℕ) (hk : k ≠ 1) (eta : ℕ) :
    (1 - (k : ℚ) ^ (eta + 1)) / (1 - (k : ℚ)) ≠ 0 := by
  rw [geom_div _ _ (one_sub_card_ne k hk)]
  have := geom_cast_ge_one k eta
  intro h
  rw [h] at this
  exact absurd this (by norm_num)

lemma wwm_eval (fa : FiniteAutomata) (eta up_to : ℕ) (lam : ℚ)
    (hk : fa.alphabet.card ≠ 1) (hl : lam ≠ 0) :
    weight_with_matrix fa eta lam up_to =
      some ((if (fa.initials ∩ fa.finals).Nonempty then
          (1 - lam ^ (eta + 1)) /
            ((1 - (fa.alphabet.card : ℚ) ^ (eta + 1)) / (1 - (fa.alphabet.card : ℚ)))
        else 0)
      + (∑ t ∈ Finset.range eta,
          (1 - lam ^ (eta + 1)) /
            ((1 - (fa.alphabet.card : ℚ) ^ (eta + 1)) / (1 - (fa.alphabet.card : ℚ))) *
          ((py_round (shareVal fa (1 + t) * (fa.alphabet.card : ℚ) ^ (1 + t)) : ℤ) : ℚ))
      + (∑ t ∈ Finset.range (up_to - (eta + 1)),
          shareVal fa (eta + 1 + t) * lam ^ (eta + 1 + t + 1)) * ((1 - lam) / lam)) := by
  have hkQ : (1 : ℚ) - (fa.alphabet.card : ℚ) ≠ 0 := one_sub_card_ne _ hk
  have hmw : (1 - (fa.alphabet.card : ℚ) ^ (eta + 1)) / (1 - (fa.alphabet.card : ℚ)) ≠ 0 :=
    max_words_ne_zero _ hk eta
  simp only [weight_with_matrix, pydiv]
  rw [if_neg hkQ]
  simp only []
  rw [if_neg hmw]
  simp only []
  rw [init_eq_cacheUpTo]
  rw [show cacheUpTo fa 1 = cacheUpTo fa (max (1 - 1) 1) from rfl]
  rw [constPartLoop_eval fa fa.alphabet.card _ eta 1 _ (le_refl 1)]
  simp only []
  rw [show max (1 + eta - 1) 1 = max (eta + 1 - 1) 1 by omega]
  rw [expPartLoop_eval fa lam (up_to - (eta + 1)) (eta + 1) 0 (by omega)]
  simp only []
  rw [if_neg hl]
  simp only [zero_add]

/-! ### Stochasticity of the matrix powers -/

lemma sum_filter_length (n : ℕ) :
    ∀ L : List (ℕ × ℕ), (∀ pl ∈ L, pl.1 < n) →
      ∑ p ∈ Finset.range n, (L.filter (fun pl => pl.1 = p)).length = L.length := by
  intro L
  induction L with
  | nil => intro _; simp
  | cons x L ih =>
    intro h
    have hx : x.1 < n := h x (List.mem_cons_self x L)
    have hsplit : ∀ p, ((x :: L).filter (fun pl => pl.1 = p)).length =
        (if x.1 = p then 1 else 0) + (L.filter (fun pl => pl.1 = p)).length := by
      intro p
      by_cases hp : x.1 = p
      · simp [List.filter_cons, hp]
        omega
      · simp [List.filter_cons, hp]
    rw [Finset.sum_congr rfl (fun p _ => hsplit p), Finset.sum_add_distrib,
      ih (fun pl hm => h pl (List.mem_cons_of_mem x hm)),
      Finset.sum_ite_eq (Finset.range n) x.1 (fun _ => 1),
      if_pos (Finset.mem_range.mpr hx), List.length_cons]
    omega

lemma transMat_nonneg (fa : FiniteAutomata) (q p : ℕ) : 0 ≤ transMat fa q p :=
  div_nonneg (Nat.cast_nonneg _) (Nat.cast_nonneg _)

lemma matpow_nonneg (fa : FiniteAutomata) (i q p : ℕ) : 0 ≤ matpow fa i q p := by
  induction i generalizing q p with
  | zero => exact transMat_nonneg fa q p
  | succ j ih =>
    cases j with
    | zero => exact transMat_nonneg fa q p
    | succ j' =>
      have hunf : matpow fa (j' + 1 + 1) q p =
          ∑ l ∈ Finset.range fa.numStates, matpow fa (j' + 1) q l * transMat fa l p := rfl
      rw [hunf]
      exact Finset.sum_nonneg fun l _ =>
        mul_nonneg (ih q l) (transMat_nonneg fa l p)

lemma transMat_row_sum (fa : FiniteAutomata) (htot : TotalTransitions fa)
    (hk : fa.alphabet.card ≠ 0) (q : ℕ) (hq : q < fa.numStates) :
    ∑ p ∈ Finset.range fa.numStates, transMat fa q p = 1 := by
  unfold transMat countLetters
  rw [← Finset.sum_div, ← Nat.cast_sum,
    sum_filter_length fa.numStates (fa.succs q) (htot q hq).2,
    (htot q hq).1, div_self]
  exact Nat.cast_ne_zero.mpr hk

lemma matpow_row_sum (fa : FiniteAutomata) (htot : TotalTransitions fa)
    (hk : fa.alphabet.card ≠ 0) (i : ℕ) :
    ∀ q < fa.numStates, ∑ p ∈ Finset.range fa.numStates, matpow fa i q p = 1 := by
  induction i with
  | zero => exact transMat_row_sum fa htot hk
  | succ j ih =>
    cases j with
    | zero => exact transMat_row_sum fa htot hk
    | succ j' =>
      intro q hq
      unfold matpow matMul
      rw [Finset.sum_comm]
      have hin : ∀ l ∈ Finset.range fa.numStates,
          ∑ p ∈ Finset.range fa.numStates, matpow fa (j' + 1) q l * transMat fa l p =
          matpow fa (j' + 1) q l := by
        intro l hl
        rw [← Finset.mul_sum,
          transMat_row_sum fa htot hk l (Finset.mem_range.mp hl), mul_one]
      rw [Finset.sum_congr rfl hin]
      exact ih q hq

/-! ### Soundness of get_matrix on valid caches -/

lemma get_matrix_fa (i : ℕ) (st : MatrixCache) :
    ((MatrixCache.get_matrix st i).1).fa = st.fa := by
  induction i generalizing st with
  | zero => rfl
  | succ n ih =>
    simp only [MatrixCache.get_matrix]
    cases hc : st.matrices (n + 1) with
    | some m => rfl
    | none =>
      cases hb : st.matrices n with
      | some before =>
        cases h1 : st.matrices 1 with
        | some first => rfl
        | none => rfl
      | none => exact ih st

lemma validCache_init (fa : FiniteAutomata) : ValidCache (MatrixCache.init fa) := by
  intro j m h
  unfold MatrixCache.init at h
  by_cases hj : j = 1
  · subst hj
    simp at h
    exact ⟨le_refl 1, by rw [← h]; rfl⟩
  · simp [hj] at h

lemma validCache_cacheUpTo (fa : FiniteAutomata) (j : ℕ) :
    ValidCache (cacheUpTo fa j) := by
  intro t m h
  rw [cacheUpTo_matrices] at h
  by_cases ht : 1 ≤ t ∧ t ≤ j
  · rw [if_pos ht] at h
    exact ⟨ht.1, by injection h with h; exact h.symm⟩
  · rw [if_neg ht] at h
    exact absurd h (by simp)

lemma get_matrix_sound (st : MatrixCache) (i : ℕ) (m : ℕ → ℕ → ℚ)
    (hv : ValidCache st) (h : (MatrixCache.get_matrix st i).2 = some m) :
    m = matpow st.fa i := by
  cases i with
  | zero =>
    have h0 : st.matrices 0 = some m := h
    exact absurd (hv 0 m h0).1 (by omega)
  | succ n =>
    simp only [MatrixCache.get_matrix] at h
    cases hc : st.matrices (n + 1) with
    | some m0 =>
      rw [hc] at h
      simp at h
      rw [← h]
      exact (hv (n + 1) m0 hc).2
    | none =>
      rw [hc] at h
      simp only [] at h
      cases hb : st.matrices n with
      | some before =>
        rw [hb] at h
        cases h1 : st.matrices 1 with
        | some first =>
          rw [h1] at h
          simp at h
          obtain ⟨hn1, hbe⟩ := hv n before hb
          obtain ⟨_, hfe⟩ := hv 1 first h1
          rw [← h, hbe, hfe]
          rw [matpow_succ st.fa n hn1]
          rfl
        | none =>
          rw [h1] at h
          simp at h
      | none =>
        rw [hb] at h
        simp at h

/-! ### Soundness of the linear solver -/

lemma linalgSolve_sound {n : ℕ} (a : Matrix (Fin n) (Fin n) ℚ) (b : Fin n → ℚ)
    (x : Fin n → ℚ) (h : linalgSolve a b = some x) : a.mulVec x = b := by
  unfold linalgSolve at h
  by_cases hd : a.det = 0
  · rw [if_pos hd] at h
    exact absurd h (by simp)
  · rw [if_neg hd] at h
    injection h with h
    rw [← h, Matrix.mulVec_smul, Matrix.mulVec_cramer a b, smul_smul,
      inv_mul_cancel₀ hd, one_smul]

lemma explicit_solution_char (fa : FiniteAutomata) (lam : ℚ) (r : ℚ)
    (h : explicit_solution fa lam = some r) :
    ∃ x : Fin fa.numStates → ℚ,
      (lsMatrix fa lam).mulVec x = solVec fa lam ∧
      ∃ (hne : fa.initials.Nonempty) (hlt : fa.initials.min' hne < fa.numStates),
        r = x ⟨fa.initials.min' hne, hlt⟩ := by
  unfold explicit_solution at h
  cases hs : linalgSolve (lsMatrix fa lam) (solVec fa lam) with
  | none => rw [hs] at h; exact absurd h (by simp)
  | some res =>
    rw [hs] at h
    simp only [] at h
    by_cases hne : fa.initials.Nonempty
    · rw [dif_pos hne] at h
      by_cases hlt : fa.initials.min' hne < fa.numStates
      · rw [dif_pos hlt] at h
        injection h with h
        exact ⟨res, linalgSolve_sound _ _ _ hs, hne, hlt, h.symm⟩
      · rw [dif_neg hlt] at h
        exact absurd h (by simp)
    · rw [dif_neg hne] at h
      exact absurd h (by simp)

/-! ### The single-state fully accepting automaton -/

lemma oneState_countLetters (ab : Finset ℕ) (ls : List (ℕ × ℕ))
    (hself : ∀ pl ∈ ls, pl.1 = 0) :
    countLetters (oneState ab ls) 0 0 = ls.length := by
  unfold countLetters oneState
  simp only [if_pos rfl]
  congr 1
  exact List.filter_eq_self.mpr fun pl hm => by simp [hself pl hm]

lemma oneState_transMat (ab : Finset ℕ) (ls : List (ℕ × ℕ))
    (hself : ∀ pl ∈ ls, pl.1 = 0) (hlen : ls.length = ab.card)
    (hk0 : ab.card ≠ 0) :
    transMat (oneState ab ls) 0 0 = 1 := by
  unfold transMat
  rw [show (oneState ab ls).alphabet = ab from rfl,
    oneState_countLetters ab ls hself, hlen]
  exact div_self (Nat.cast_ne_zero.mpr hk0)

lemma oneState_matpow (ab : Finset ℕ) (ls : List (ℕ × ℕ))
    (hself : ∀ pl ∈ ls, pl.1 = 0) (hlen : ls.length = ab.card)
    (hk0 : ab.card ≠ 0) :
    ∀ i, matpow (oneState ab ls) i 0 0 = 1 := by
  intro i
  induction i with
  | zero => exact oneState_transMat ab ls hself hlen hk0
  | succ j ih =>
    cases j with
    | zero => exact oneState_transMat ab ls hself hlen hk0
    | succ j' =>
      have hunf : matpow (oneState ab ls) (j' + 1 + 1) 0 0 =
          ∑ l ∈ Finset.range 1,
            matpow (oneState ab ls) (j' + 1) 0 l * transMat (oneState ab ls) l 0 := rfl
      rw [hunf, Finset.sum_range_one, ih, one_mul]
      exact oneState_transMat ab ls hself hlen hk0

lemma oneState_shareVal (ab : Finset ℕ) (ls : List (ℕ × ℕ))
    (hself : ∀ pl ∈ ls, pl.1 = 0) (hlen : ls.length = ab.card)
    (hk0 : ab.card ≠ 0) :
    ∀ i, shareVal (oneState ab ls) i = 1 := by
  intro i
  unfold shareVal
  rw [show (oneState ab ls).initials = {0} from rfl,
    show (oneState ab ls).finals = {0} from rfl,
    Finset.sum_singleton, Finset.sum_singleton]
  exact oneState_matpow ab ls hself hlen hk0 i

lemma oneState_det (ab : Finset ℕ) (ls : List (ℕ × ℕ)) (lam : ℚ)
    (hself : ∀ pl ∈ ls, pl.1 = 0) (hlen : ls.length = ab.card)
    (hk0 : ab.card ≠ 0) :
    (lsMatrix (oneState ab ls) lam).det = lam - 1 := by
  rw [Matrix.det_fin_one]
  show (if ((0 : Fin 1) : ℕ) = ((0 : Fin 1) : ℕ) then
      (countLetters (oneState ab ls) 0 0 : ℚ) *
        (lam / ((oneState ab ls).alphabet.card : ℚ)) - 1
    else (countLetters (oneState ab ls) 0 0 : ℚ) *
        (lam / ((oneState ab ls).alphabet.card : ℚ))) = lam - 1
  rw [if_pos rfl, oneState_countLetters ab ls hself,
    show (oneState ab ls).alphabet = ab from rfl, hlen]
  have hc : (ab.card : ℚ) ≠ 0 := Nat.cast_ne_zero.mpr hk0
  field_simp

lemma oneState_explicit (ab : Finset ℕ) (ls : List (ℕ × ℕ)) (lam : ℚ)
    (hself : ∀ pl ∈ ls, pl.1 = 0) (hlen : ls.length = ab.card)
    (hk0 : ab.card ≠ 0) (hl1 : lam ≠ 1) :
    explicit_solution (oneState ab ls) lam = some 1 := by
  unfold explicit_solution linalgSolve
  rw [oneState_det ab ls lam hself hlen hk0,
    if_neg (sub_ne_zero.mpr hl1)]
  simp only []
  have hne : ((oneState ab ls).initials).Nonempty := ⟨0, by simp [oneState]⟩
  rw [dif_pos hne]
  have hmin : (oneState ab ls).initials.min' hne = 0 := by
    simp [oneState]
  have hlt : (oneState ab ls).initials.min' hne < (oneState ab ls).numStates := by
    rw [hmin]; exact Nat.one_pos
  rw [dif_pos hlt]
  congr 1
  have hidx : (⟨(oneState ab ls).initials.min' hne, hlt⟩ :
      Fin (oneState ab ls).numStates) = ⟨0, Nat.one_pos⟩ := by
    apply Fin.ext
    exact hmin
  rw [hidx, Pi.smul_apply, smul_eq_mul, Matrix.cramer_apply, Matrix.det_fin_one]
  show (lam - 1)⁻¹ * (lsMatrix (oneState ab ls) lam).updateColumn
      (⟨0, Nat.one_pos⟩ : Fin (oneState ab ls).numStates)
      (solVec (oneState ab ls) lam) ⟨0, Nat.one_pos⟩ ⟨0, Nat.one_pos⟩ = 1
  rw [Matrix.updateColumn_self]
  show (lam - 1)⁻¹ *
    (if ((⟨0, Nat.one_pos⟩ : Fin (oneState ab ls).numStates) : ℕ) ∈
      (oneState ab ls).finals then -(1 - lam) else 0) = 1
  rw [if_pos (by simp [oneState])]
  have hneg : -(1 - lam) = lam - 1 := by ring
  rw [hneg, inv_mul_cancel₀ (sub_ne_zero.mpr hl1)]

lemma oneState_explicit_one (ab : Finset ℕ) (ls : List (ℕ × ℕ))
    (hself : ∀ pl ∈ ls, pl.1 = 0) (hlen : ls.length = ab.card)
    (hk0 : ab.card ≠ 0) :
    explicit_solution (oneState ab ls) 1 = none := by
  unfold explicit_solution linalgSolve
  rw [oneState_det ab ls 1 hself hlen hk0]
  norm_num

lemma py_round_intCast (m : ℤ) : py_round (m : ℚ) = m := by
  unfold py_round
  rw [Int.floor_intCast]
  norm_num

lemma oneState_wwm_plateau (ab : Finset ℕ) (ls : List (ℕ × ℕ)) (eta : ℕ) (lam : ℚ)
    (hself : ∀ pl ∈ ls, pl.1 = 0) (hlen : ls.length = ab.card)
    (hk0 : ab.card ≠ 0) (hk1 : ab.card ≠ 1) (hl : lam ≠ 0) :
    weight_with_matrix (oneState ab ls) eta lam 0 = some (1 - lam ^ (eta + 1)) := by
  have hkQ : (1 : ℚ) - (ab.card : ℚ) ≠ 0 := one_sub_card_ne ab.card hk1
  have hG : (1 - (ab.card : ℚ) ^ (eta + 1)) / (1 - (ab.card : ℚ)) =
      ∑ i ∈ Finset.range (eta + 1), (ab.card : ℚ) ^ i := geom_div _ _ hkQ
  have hGne : (∑ i ∈ Finset.range (eta + 1), (ab.card : ℚ) ^ i) ≠ 0 := by
    have h1 := geom_cast_ge_one ab.card eta
    intro h
    rw [h] at h1
    norm_num at h1
  rw [wwm_eval (oneState ab ls) eta 0 lam hk1 hl]
  congr 1
  rw [if_pos (show ((oneState ab ls).initials ∩ (oneState ab ls).finals).Nonempty
    from ⟨0, by simp [oneState]⟩)]
  rw [show (oneState ab ls).alphabet = ab from rfl]
  have hterm : ∀ t ∈ Finset.range eta,
      (1 - lam ^ (eta + 1)) /
        ((1 - (ab.card : ℚ) ^ (eta + 1)) / (1 - (ab.card : ℚ))) *
        ((py_round (shareVal (oneState ab ls) (1 + t) *
          (ab.card : ℚ) ^ (1 + t)) : ℤ) : ℚ) =
      (1 - lam ^ (eta + 1)) /
        ((1 - (ab.card : ℚ) ^ (eta + 1)) / (1 - (ab.card : ℚ))) *
        (ab.card : ℚ) ^ (1 + t) := by
    intro t _
    rw [oneState_shareVal ab ls hself hlen hk0 (1 + t), one_mul,
      show ((ab.card : ℚ)) ^ (1 + t) = (((ab.card : ℤ) ^ (1 + t) : ℤ) : ℚ) from by
        push_cast; ring,
      py_round_intCast]
  rw [Finset.sum_congr rfl hterm, ← Finset.mul_sum]
  rw [show (0 - (eta + 1)) = 0 from Nat.zero_sub _, Finset.sum_range_zero,
    zero_mul, add_zero]
  rw [hG]
  have h1S : (∑ i ∈ Finset.range (eta + 1), (ab.card : ℚ) ^ i) =
      1 + ∑ t ∈ Finset.range eta, (ab.card : ℚ) ^ (1 + t) := by
    rw [Finset.sum_range_succ', pow_zero, add_comm]
    congr 1
    exact Finset.sum_congr rfl (fun t _ => by rw [Nat.add_comm t 1])
  calc (1 - lam ^ (eta + 1)) / (∑ i ∈ Finset.range (eta + 1), (ab.card : ℚ) ^ i)
        + (1 - lam ^ (eta + 1)) / (∑ i ∈ Finset.range (eta + 1), (ab.card : ℚ) ^ i) *
          ∑ t ∈ Finset.range eta, (ab.card : ℚ) ^ (1 + t)
      = (1 - lam ^ (eta + 1)) / (∑ i ∈ Finset.range (eta + 1), (ab.card : ℚ) ^ i) *
          (1 + ∑ t ∈ Finset.range eta, (ab.card : ℚ) ^ (1 + t)) := by ring
    _ = (1 - lam ^ (eta + 1)) / (∑ i ∈ Finset.range (eta + 1), (ab.card : ℚ) ^ i) *
          (∑ i ∈ Finset.range (eta + 1), (ab.card : ℚ) ^ i) := by rw [← h1S]
    _ = 1 - lam ^ (eta + 1) := div_mul_cancel₀ _ hGne

lemma oneState_wwm_tail (ab : Finset ℕ) (ls : List (ℕ × ℕ)) (eta : ℕ) (lam : ℚ)
    (hself : ∀ pl ∈ ls, pl.1 = 0) (hlen : ls.length = ab.card)
    (hk0 : ab.card ≠ 0) (hk1 : ab.card ≠ 1) (hl : lam ≠ 0) :
    weight_with_matrix (oneState ab ls) 0 lam (eta + 1) = some (1 - lam ^ (eta + 1)) := by
  have hkQ : (1 : ℚ) - (ab.card : ℚ) ≠ 0 := one_sub_card_ne ab.card hk1
  rw [wwm_eval (oneState ab ls) 0 (eta + 1) lam hk1 hl]
  congr 1
  rw [show (oneState ab ls).alphabet = ab from rfl]
  rw [if_pos (show ((oneState ab ls).initials ∩ (oneState ab ls).finals).Nonempty
    from ⟨0, by simp [oneState]⟩)]
  rw [Finset.sum_range_zero, add_zero]
  have hterm : ∀ t ∈ Finset.range (eta + 1 - (0 + 1)),
      shareVal (oneState ab ls) (0 + 1 + t) * lam ^ (0 + 1 + t + 1) =
      lam ^ t * lam ^ 2 := by
    intro t _
    rw [oneState_shareVal ab ls hself hlen hk0 (0 + 1 + t), one_mul,
      show 0 + 1 + t + 1 = t + 2 by omega, pow_add]
  rw [Finset.sum_congr rfl hterm, ← Finset.sum_mul]
  rw [show eta + 1 - (0 + 1) = eta by omega]
  have hg := geom_sum_mul lam eta
  have hU0 : (1 - lam ^ (0 + 1)) / ((1 - (ab.card : ℚ) ^ (0 + 1)) / (1 - (ab.card : ℚ)))
      = 1 - lam := by
    rw [pow_one, pow_one, div_self hkQ, div_one]
  rw [hU0]
  field_simp
  linear_combination (-(lam ^ 2)) * hg

lemma oneState_weight (ab : Finset ℕ) (ls : List (ℕ × ℕ)) (eta : ℕ) (lam : ℚ)
    (hself : ∀ pl ∈ ls, pl.1 = 0) (hlen : ls.length = ab.card)
    (hk0 : ab.card ≠ 0) (hk1 : ab.card ≠ 1) (hl0 : lam ≠ 0) (hl1 : lam ≠ 1) :
    weight (oneState ab ls) eta lam = some 1 := by
  unfold weight
  rw [oneState_explicit ab ls lam hself hlen hk0 hl1]
  simp only []
  rw [oneState_wwm_plateau ab ls eta lam hself hlen hk0 hk1 hl0]
  simp only []
  rw [oneState_wwm_tail ab ls eta lam hself hlen hk0 hk1 hl0]
  simp only []
  congr 1
  ring

/-! ### Failure behaviour -/

lemma wwm_card_one (fa : FiniteAutomata) (eta : ℕ) (lam : ℚ) (up_to : ℕ)
    (hk : fa.alphabet.card = 1) :
    weight_with_matrix fa eta lam up_to = none := by
  simp only [weight_with_matrix, pydiv, hk]
  norm_num

lemma weight_card_one (fa : FiniteAutomata) (eta : ℕ) (lam : ℚ)
    (hk : fa.alphabet.card = 1) :
    weight fa eta lam = none := by
  unfold weight
  cases h : explicit_solution fa lam with
  | none => rfl
  | some w =>
    simp only []
    rw [wwm_card_one fa eta lam 0 hk]

lemma wwm_lam_zero (fa : FiniteAutomata) (eta up_to : ℕ)
    (hk1 : fa.alphabet.card ≠ 1) :
    weight_with_matrix fa eta 0 up_to = none := by
  have hkQ : (1 : ℚ) - (fa.alphabet.card : ℚ) ≠ 0 := one_sub_card_ne _ hk1
  have hmw := max_words_ne_zero fa.alphabet.card hk1 eta
  simp only [weight_with_matrix, pydiv]
  rw [if_neg hkQ]
  simp only []
  rw [if_neg hmw]
  simp only []
  rw [init_eq_cacheUpTo,
    show cacheUpTo fa 1 = cacheUpTo fa (max (1 - 1) 1) from rfl,
    constPartLoop_eval fa fa.alphabet.card _ eta 1 _ (le_refl 1)]
  simp only []
  rw [show max (1 + eta - 1) 1 = max (eta + 1 - 1) 1 by omega,
    expPartLoop_eval fa 0 (up_to - (eta + 1)) (eta + 1) 0 (by omega)]
  simp

lemma weight_lam_zero (fa : FiniteAutomata) (eta : ℕ) :
    weight fa eta 0 = none := by
  by_cases hk1 : fa.alphabet.card = 1
  · exact weight_card_one fa eta 0 hk1
  · unfold weight
    cases h : explicit_solution fa 0 with
    | none => rfl
    | some w =>
      simp only []
      rw [wwm_lam_zero fa eta 0 hk1]

/-! ### get_share values on valid caches -/

lemma gm_init_three (fa : FiniteAutomata) :
    (MatrixCache.get_matrix (MatrixCache.init fa) 3).2 = none := by
  simp [MatrixCache.get_matrix, MatrixCache.init]

lemma gm_init_two (fa : FiniteAutomata) :
    (MatrixCache.get_matrix (MatrixCache.init fa) 2).2 = some (matpow fa 2) := by
  simp [MatrixCache.get_matrix, MatrixCache.init]
  rfl

lemma get_share_bounds (st : MatrixCache) (i : ℤ) (v : ℚ) (s0 : ℕ)
    (htot : TotalTransitions st.fa) (hk0 : st.fa.alphabet.card ≠ 0)
    (hinit : st.fa.initials = {s0}) (hs0 : s0 < st.fa.numStates)
    (hfin : st.fa.finals ⊆ Finset.range st.fa.numStates)
    (hv : ValidCache st)
    (h : (MatrixCache.get_share st i).2 = some v) :
    0 ≤ v ∧ v ≤ 1 := by
  unfold MatrixCache.get_share at h
  by_cases hi : i < 1
  · rw [if_pos hi] at h
    injection h with h
    constructor <;> simp [← h]
  · rw [if_neg hi] at h
    rcases hgm : MatrixCache.get_matrix st i.toNat with ⟨st', mo⟩
    rw [hgm] at h
    have hfa : st'.fa = st.fa := by
      have hh := get_matrix_fa i.toNat st
      rw [hgm] at hh
      exact hh
    cases mo with
    | some mat =>
      simp only [] at h
      injection h with h
      have hmat : mat = matpow st.fa i.toNat := by
        apply get_matrix_sound st i.toNat mat hv
        rw [hgm]
      subst hmat
      rw [hfa, hinit, Finset.sum_singleton] at h
      constructor
      · rw [← h]
        exact Finset.sum_nonneg fun f _ => matpow_nonneg st.fa i.toNat s0 f
      · rw [← h]
        calc ∑ f ∈ st.fa.finals, matpow st.fa i.toNat s0 f
            ≤ ∑ p ∈ Finset.range st.fa.numStates, matpow st.fa i.toNat s0 p :=
              Finset.sum_le_sum_of_subset_of_nonneg hfin
                (fun p _ _ => matpow_nonneg st.fa i.toNat s0 p)
          _ = 1 := matpow_row_sum st.fa htot hk0 i.toNat s0 hs0
    | none =>
      simp only [] at h
      by_cases hne : st'.fa.initials.Nonempty ∧ st'.fa.finals.Nonempty
      · rw [if_pos hne] at h
        exact absurd h (by simp)
      · rw [if_neg hne] at h
        injection h with h
        constructor <;> simp [← h]

/-! ### Concrete evaluations on the example automata -/

lemma twoInit_share : shareVal twoInitDFA 1 = 2 := by
  have c00 : countLetters twoInitDFA 0 0 = 2 := by decide
  have c01 : countLetters twoInitDFA 0 1 = 0 := by decide
  have c10 : countLetters twoInitDFA 1 0 = 0 := by decide
  have c11 : countLetters twoInitDFA 1 1 = 2 := by decide
  have card2 : twoInitDFA.alphabet.card = 2 := by decide
  have h01 : (0 : ℕ) ≠ 1 := by norm_num
  unfold shareVal
  rw [show twoInitDFA.initials = {0, 1} from rfl,
    show twoInitDFA.finals = {0, 1} from rfl]
  rw [Finset.sum_pair h01, Finset.sum_pair h01, Finset.sum_pair h01]
  rw [show matpow twoInitDFA 1 = transMat twoInitDFA from rfl]
  unfold transMat
  rw [c00, c01, c10, c11, card2]
  norm_num

lemma exampleDFA_self : ∀ pl ∈ [((0 : ℕ), (0 : ℕ)), (0, 1)], pl.1 = 0 := by decide

lemma exampleDFA_len :
    [((0 : ℕ), (0 : ℕ)), (0, 1)].length = ({0, 1} : Finset ℕ).card := by decide

lemma exampleDFA_card0 : ({0, 1} : Finset ℕ).card ≠ 0 := by decide

lemma exampleDFA_card1 : ({0, 1} : Finset ℕ).card ≠ 1 := by decide

lemma exampleDFA_share (i : ℕ) : shareVal exampleDFA i = 1 :=
  oneState_shareVal {0, 1} [(0, 0), (0, 1)] exampleDFA_self exampleDFA_len
    exampleDFA_card0 i

lemma gs_init_one (fa : FiniteAutomata) :
    MatrixCache.get_share (MatrixCache.init fa) 1 =
      (MatrixCache.init fa, some (shareVal fa 1)) := by
  have h := gs_next fa 1 (le_refl 1)
  rw [show max (1 - 1) 1 = 1 from rfl, ← init_eq_cacheUpTo] at h
  rw [show (1 : ℤ) = ((1 : ℕ) : ℤ) from rfl]
  exact h

/-! ### Claims -/

/-- C1: for every DFA, every eta and every lambda in (0, 1], weight is the
exact-solver output, plus the plateau-only estimate with up_to = 0, minus
the correction estimate computed with eta = 0 and up_to = eta + 1. -/
theorem weight_hybrid_composition (fa : FiniteAutomata) (eta : ℕ) (lam : ℚ)
    (hl0 : 0 < lam) (hl1 : lam ≤ 1) (w1 w2 w3 : ℚ)
    (he : explicit_solution fa lam = some w1)
    (hp : weight_with_matrix fa eta lam 0 = some w2)
    (hc : weight_with_matrix fa 0 lam (eta + 1) = some w3) :
    weight fa eta lam = some (w1 + w2 - w3) := by
  unfold weight
  rw [he]
  simp only []
  rw [hp]
  simp only []
  rw [hc]

theorem weight_hybrid_composition_witness :
    weight exampleDFA 1 (1 / 2) = some (1 + 3 / 4 - 3 / 4) := by
  have hp : weight_with_matrix exampleDFA 1 (1 / 2) 0 = some (3 / 4) := by
    have h := oneState_wwm_plateau {0, 1} [(0, 0), (0, 1)] 1 (1 / 2)
      exampleDFA_self exampleDFA_len exampleDFA_card0 exampleDFA_card1 (by norm_num)
    norm_num at h
    exact h
  have hc : weight_with_matrix exampleDFA 0 (1 / 2) 2 = some (3 / 4) := by
    have h := oneState_wwm_tail {0, 1} [(0, 0), (0, 1)] 1 (1 / 2)
      exampleDFA_self exampleDFA_len exampleDFA_card0 exampleDFA_card1 (by norm_num)
    norm_num at h
    exact h
  exact weight_hybrid_composition exampleDFA 1 (1 / 2) (by norm_num) (by norm_num)
    1 (3 / 4) (3 / 4)
    (oneState_explicit {0, 1} [(0, 0), (0, 1)] (1 / 2) exampleDFA_self
      exampleDFA_len exampleDFA_card0 (by norm_num))
    hp hc

/-- C2: the claim says get_matrix on a fresh cache returns the i-th power
for every i of at least 1.  That holds for i = 1 and i = 2, but for i = 3
the doubly uncached branch recurses and then falls through, returning
None - contradicting the claim and the docstring of the method. -/
theorem get_matrix_fresh_cache_fall_through (fa : FiniteAutomata) :
    (MatrixCache.get_matrix (MatrixCache.init fa) 2).2 = some (matpow fa 2) ∧
    (MatrixCache.get_matrix (MatrixCache.init fa) 3).2 = none :=
  ⟨gm_init_two fa, gm_init_three fa⟩

/-- C3: whenever __explicit_solution returns a value, that value is the
component, at the minimum-valued initial state, of a solution of the
linear system A x = b with A and b exactly as built by the source. -/
theorem explicit_solution_solves_system (fa : FiniteAutomata) (lam : ℚ) (r : ℚ)
    (h : explicit_solution fa lam = some r) :
    ∃ x : Fin fa.numStates → ℚ,
      (lsMatrix fa lam).mulVec x = solVec fa lam ∧
      ∃ (hne : fa.initials.Nonempty)
        (hlt : fa.initials.min' hne < fa.numStates),
        r = x ⟨fa.initials.min' hne, hlt⟩ :=
  explicit_solution_char fa lam r h

theorem explicit_solution_solves_system_witness :
    ∃ x : Fin exampleDFA.numStates → ℚ,
      (lsMatrix exampleDFA (1 / 2)).mulVec x = solVec exampleDFA (1 / 2) ∧
      ∃ (hne : exampleDFA.initials.Nonempty)
        (hlt : exampleDFA.initials.min' hne < exampleDFA.numStates),
        (1 : ℚ) = x ⟨exampleDFA.initials.min' hne, hlt⟩ :=
  explicit_solution_solves_system exampleDFA (1 / 2) 1
    (oneState_explicit {0, 1} [(0, 0), (0, 1)] (1 / 2) exampleDFA_self
      exampleDFA_len exampleDFA_card0 (by norm_num))

/-- C4: for an alphabet of at least two symbols, eta of at least 0, lambda
in (0, 1] and any up_to, the estimator returns the plateau weight (the
empty-word term when an initial state is final, plus the per-word weight u
times the rounded accepted-word count for each length 1..eta) plus the
tail sum over lengths eta+1..up_to-1 scaled by (1 - lambda) / lambda; for
up_to = 0 the tail contributes exactly 0 and the pure plateau weight
remains. -/
theorem weight_with_matrix_formula (fa : FiniteAutomata) (eta up_to : ℕ)
    (lam : ℚ) (hk : 2 ≤ fa.alphabet.card) (hl0 : 0 < lam) (hl1 : lam ≤ 1) :
    (weight_with_matrix fa eta lam up_to =
      some ((if (fa.initials ∩ fa.finals).Nonempty then
          (1 - lam ^ (eta + 1)) /
            ((1 - (fa.alphabet.card : ℚ) ^ (eta + 1)) / (1 - (fa.alphabet.card : ℚ)))
        else 0)
        + (∑ i ∈ Finset.Ico 1 (eta + 1),
            (1 - lam ^ (eta + 1)) /
              ((1 - (fa.alphabet.card : ℚ) ^ (eta + 1)) / (1 - (fa.alphabet.card : ℚ))) *
            ((py_round (shareVal fa i * (fa.alphabet.card : ℚ) ^ i) : ℤ) : ℚ))
        + (∑ i ∈ Finset.Ico (eta + 1) up_to, shareVal fa i * lam ^ (i + 1)) *
            ((1 - lam) / lam)))
    ∧ (up_to = 0 → weight_with_matrix fa eta lam up_to =
      some ((if (fa.initials ∩ fa.finals).Nonempty then
          (1 - lam ^ (eta + 1)) /
            ((1 - (fa.alphabet.card : ℚ) ^ (eta + 1)) / (1 - (fa.alphabet.card : ℚ)))
        else 0)
        + (∑ i ∈ Finset.Ico 1 (eta + 1),
            (1 - lam ^ (eta + 1)) /
              ((1 - (fa.alphabet.card : ℚ) ^ (eta + 1)) / (1 - (fa.alphabet.card : ℚ))) *
            ((py_round (shareVal fa i * (fa.alphabet.card : ℚ) ^ i) : ℤ) : ℚ)))) := by
  have hmain : weight_with_matrix fa eta lam up_to =
      some ((if (fa.initials ∩ fa.finals).Nonempty then
          (1 - lam ^ (eta + 1)) /
            ((1 - (fa.alphabet.card : ℚ) ^ (eta + 1)) / (1 - (fa.alphabet.card : ℚ)))
        else 0)
        + (∑ i ∈ Finset.Ico 1 (eta + 1),
            (1 - lam ^ (eta + 1)) /
              ((1 - (fa.alphabet.card : ℚ) ^ (eta + 1)) / (1 - (fa.alphabet.card : ℚ))) *
            ((py_round (shareVal fa i * (fa.alphabet.card : ℚ) ^ i) : ℤ) : ℚ))
        + (∑ i ∈ Finset.Ico (eta + 1) up_to, shareVal fa i * lam ^ (i + 1)) *
            ((1 - lam) / lam)) := by
    rw [wwm_eval fa eta up_to lam (by omega) (ne_of_gt hl0)]
    congr 1
    rw [Finset.sum_Ico_eq_sum_range, Finset.sum_Ico_eq_sum_range,
      show eta + 1 - 1 = eta from rfl]
  refine ⟨hmain, ?_⟩
  intro h0
  subst h0
  rw [hmain]
  congr 1
  rw [show Finset.Ico (eta + 1) 0 = ∅ from Finset.Ico_eq_empty (by omega),
    Finset.sum_empty, zero_mul, add_zero]

theorem weight_with_matrix_formula_witness :
    2 ≤ exampleDFA.alphabet.card ∧ (0 : ℚ) < 1 / 2 ∧ (1 / 2 : ℚ) ≤ 1 ∧
    ((weight_with_matrix exampleDFA 1 (1 / 2) 3 =
      some ((if (exampleDFA.initials ∩ exampleDFA.finals).Nonempty then
          (1 - (1 / 2 : ℚ) ^ (1 + 1)) /
            ((1 - (exampleDFA.alphabet.card : ℚ) ^ (1 + 1)) /
              (1 - (exampleDFA.alphabet.card : ℚ)))
        else 0)
        + (∑ i ∈ Finset.Ico 1 (1 + 1),
            (1 - (1 / 2 : ℚ) ^ (1 + 1)) /
              ((1 - (exampleDFA.alphabet.card : ℚ) ^ (1 + 1)) /
                (1 - (exampleDFA.alphabet.card : ℚ))) *
            ((py_round (shareVal exampleDFA i * (exampleDFA.alphabet.card : ℚ) ^ i) : ℤ) : ℚ))
        + (∑ i ∈ Finset.Ico (1 + 1) 3, shareVal exampleDFA i * (1 / 2 : ℚ) ^ (i + 1)) *
            ((1 - (1 / 2 : ℚ)) / (1 / 2 : ℚ))))
    ∧ (3 = 0 → weight_with_matrix exampleDFA 1 (1 / 2) 3 =
      some ((if (exampleDFA.initials ∩ exampleDFA.finals).Nonempty then
          (1 - (1 / 2 : ℚ) ^ (1 + 1)) /
            ((1 - (exampleDFA.alphabet.card : ℚ) ^ (1 + 1)) /
              (1 - (exampleDFA.alphabet.card : ℚ)))
        else 0)
        + (∑ i ∈ Finset.Ico 1 (1 + 1),
            (1 - (1 / 2 : ℚ) ^ (1 + 1)) /
              ((1 - (exampleDFA.alphabet.card : ℚ) ^ (1 + 1)) /
                (1 - (exampleDFA.alphabet.card : ℚ))) *
            ((py_round (shareVal exampleDFA i * (exampleDFA.alphabet.card : ℚ) ^ i) : ℤ) : ℚ))))) :=
  ⟨by decide, by norm_num, by norm_num,
    weight_with_matrix_formula exampleDFA 1 3 (1 / 2) (by decide) (by norm_num)
      (by norm_num)⟩

/-- C5 counterexample: the claim says a call with lambda greater than 1 is
rejected before any computation; but weight performs no validation at all,
and at lambda = 2 it runs to completion and returns a value. -/
theorem weight_lambda_two_counterexample :
    (1 : ℚ) < 2 ∧ weight exampleDFA 0 2 = some 1 :=
  ⟨by norm_num,
    oneState_weight {0, 1} [(0, 0), (0, 1)] 0 2 exampleDFA_self exampleDFA_len
      exampleDFA_card0 exampleDFA_card1 (by norm_num) (by norm_num)⟩

/-- C5 amended: weight validates nothing.  An out-of-range lambda is not
rejected before computation: lambda = 0 makes the computation itself fail
(the tail scaling divides by lambda), for every automaton and every eta,
while lambda above 1 is silently accepted (see the counterexample). -/
theorem weight_no_validation_lambda_zero (fa : FiniteAutomata) (eta : ℕ) :
    weight fa eta 0 = none :=
  weight_lam_zero fa eta

/-- C6 counterexample: with two initial states that are both final, the
share of words of length 1 is the sum of two full rows and equals 2,
outside the unit interval the claim asserts. -/
theorem get_share_two_initials_counterexample :
    (MatrixCache.get_share (MatrixCache.init twoInitDFA) 1).2 = some 2 ∧
    ¬ ((2 : ℚ) ≤ 1) := by
  constructor
  · rw [gs_init_one twoInitDFA]
    rw [twoInit_share]
  · norm_num

/-- C6 amended: for a deterministic total automaton with a single initial
state in range and final states in range, every value get_share actually
returns (from any valid cache state) lies in the closed unit interval;
with several initial states the value can exceed 1. -/
theorem get_share_unit_interval_single_initial (st : MatrixCache) (i : ℤ)
    (v : ℚ) (s0 : ℕ) (htot : TotalTransitions st.fa)
    (hk0 : st.fa.alphabet.card ≠ 0) (hinit : st.fa.initials = {s0})
    (hs0 : s0 < st.fa.numStates)
    (hfin : st.fa.finals ⊆ Finset.range st.fa.numStates) (hv : ValidCache st)
    (h : (MatrixCache.get_share st i).2 = some v) :
    0 ≤ v ∧ v ≤ 1 :=
  get_share_bounds st i v s0 htot hk0 hinit hs0 hfin hv h

theorem get_share_unit_interval_single_initial_witness :
    (0 : ℚ) ≤ 1 ∧ (1 : ℚ) ≤ 1 :=
  get_share_unit_interval_single_initial (MatrixCache.init exampleDFA) 1 1 0
    (by unfold TotalTransitions; decide) (by decide) (by decide) (by decide)
    (by decide)
    (validCache_init exampleDFA)
    (by rw [gs_init_one exampleDFA, exampleDFA_share])

/-- C7 counterexample: the claim includes lambda = 1, but there the
coefficient matrix of the exact solver is singular (the single diagonal
entry is lambda - 1 = 0), np.linalg.solve raises, and weight returns no
value instead of 1. -/
theorem weight_full_automaton_lambda_one_counterexample :
    weight exampleDFA 0 1 = none ∧ weight exampleDFA 0 1 ≠ some 1 := by
  have h : weight exampleDFA 0 1 = none := by
    unfold weight exampleDFA
    rw [oneState_explicit_one {0, 1} [(0, 0), (0, 1)] exampleDFA_self
      exampleDFA_len exampleDFA_card0]
  exact ⟨h, by rw [h]; simp⟩

/-- C7 amended: for the single-state automaton whose state is initial and
final with one self-loop per symbol, over an alphabet of at least two
symbols and for lambda in the open interval (0, 1), weight is exactly 1;
at lambda = 1 the solver hits a singular system (see the counterexample),
and on a one-symbol alphabet the estimator divides by zero. -/
theorem weight_full_automaton_eq_one (ab : Finset ℕ) (ls : List (ℕ × ℕ))
    (eta : ℕ) (lam : ℚ) (hself : ∀ pl ∈ ls, pl.1 = 0)
    (hlen : ls.length = ab.card) (hk : 2 ≤ ab.card)
    (hl0 : 0 < lam) (hl1 : lam < 1) :
    weight (oneState ab ls) eta lam = some 1 :=
  oneState_weight ab ls eta lam hself hlen (by omega) (by omega)
    (ne_of_gt hl0) (ne_of_lt hl1)

theorem weight_full_automaton_eq_one_witness :
    weight exampleDFA 0 (1 / 2) = some 1 :=
  weight_full_automaton_eq_one {0, 1} [(0, 0), (0, 1)] 0 (1 / 2)
    exampleDFA_self exampleDFA_len (by decide) (by norm_num) (by norm_num)

/-- C8: get_share returns 0 for every argument below 1 without touching
the cache; but for i of at least 3 on a fresh cache the claim fails: the
inner get_matrix falls through with None and the subscript in get_share
has no value to index (a TypeError in Python), contradicting the claim
and the docstring of get_share. -/
theorem get_share_low_and_fresh_three_fails :
    (∀ (st : MatrixCache) (j : ℕ),
      MatrixCache.get_share st (-(j : ℤ)) = (st, some 0)) ∧
    (MatrixCache.get_share (MatrixCache.init exampleDFA) 3).2 = none := by
  constructor
  · intro st j
    unfold MatrixCache.get_share
    rw [if_pos (by omega)]
  · unfold MatrixCache.get_share
    rw [if_neg (by omega)]
    rcases hgm : MatrixCache.get_matrix (MatrixCache.init exampleDFA)
        ((3 : ℤ)).toNat with ⟨st', mo⟩
    have hfa : st'.fa = exampleDFA := by
      have hh := get_matrix_fa ((3 : ℤ)).toNat (MatrixCache.init exampleDFA)
      rw [hgm] at hh
      exact hh
    have hmo : mo = none := by
      have hh := gm_init_three exampleDFA
      rw [show ((3 : ℤ)).toNat = 3 from rfl] at hgm
      rw [hgm] at hh
      exact hh
    subst hmo
    have hP : st'.fa.initials.Nonempty ∧ st'.fa.finals.Nonempty := by
      rw [hfa]
      exact ⟨⟨0, by simp [exampleDFA, oneState]⟩, ⟨0, by simp [exampleDFA, oneState]⟩⟩
    simp only []
    rw [if_pos hP]

/-- C9: the estimator only ever calls get_share with consecutive ascending
lengths on a cache freshly seeded with the one-step matrix; on the cache
state reached before length a (keys 1..max(a-1,1)), get_share a succeeds
with the true share, caching the power of a, so the get_matrix branch in
which neither i nor i - 1 is cached is never reached: for any parameters
that pass the divisions, the whole estimator returns a value. -/
theorem get_share_ascending_and_estimator_total (fa : FiniteAutomata)
    (a eta up_to : ℕ) (lam : ℚ) (ha : 1 ≤ a) (hk : 2 ≤ fa.alphabet.card)
    (hl : lam ≠ 0) :
    MatrixCache.get_share (cacheUpTo fa (max (a - 1) 1)) (a : ℤ) =
      (cacheUpTo fa a, some (shareVal fa a)) ∧
    (weight_with_matrix fa eta lam up_to).isSome = true := by
  refine ⟨gs_next fa a ha, ?_⟩
  rw [wwm_eval fa eta up_to lam (by omega) hl]
  rfl

theorem get_share_ascending_and_estimator_total_witness :
    1 ≤ 3 ∧ 2 ≤ exampleDFA.alphabet.card ∧ (1 / 2 : ℚ) ≠ 0 ∧
    (MatrixCache.get_share (cacheUpTo exampleDFA (max (3 - 1) 1)) ((3 : ℕ) : ℤ) =
      (cacheUpTo exampleDFA 3, some (shareVal exampleDFA 3)) ∧
    (weight_with_matrix exampleDFA 2 (1 / 2) 0).isSome = true) :=
  ⟨by norm_num, by decide, by norm_num,
    get_share_ascending_and_estimator_total exampleDFA 3 2 0 (1 / 2)
      (by norm_num) (by decide) (by norm_num)⟩

/-- C10: over a one-symbol alphabet the plateau word count divides by
1 - k = 0, so the estimator and with it every call to weight fails, for
every eta and every lambda. -/
theorem weight_unary_alphabet_fails (fa : FiniteAutomata) (eta up_to : ℕ)
    (lam : ℚ) (hk : fa.alphabet.card = 1) :
    weight fa eta lam = none ∧ weight_with_matrix fa eta lam up_to = none :=
  ⟨weight_card_one fa eta lam hk, wwm_card_one fa eta lam up_to hk⟩

theorem weight_unary_alphabet_fails_witness :
    oneLetterDFA.alphabet.card = 1 ∧
    (weight oneLetterDFA 0 (1 / 2) = none ∧
      weight_with_matrix oneLetterDFA 0 (1 / 2) 0 = none) :=
  ⟨by decide, weight_unary_alphabet_fails oneLetterDFA 0 0 (1 / 2) (by decide)⟩
